import Mathlib

/-!
Verification of the core of `prolog.cpp` (a small Prolog interpreter):
term model, unification with a binding trail, clause instantiation by
copying, backtracking resolution, and the solution reporter.

The C++ code mutates `Variable` objects in place and keeps a global trail
(`Trace`).  The embedding makes that state explicit: a state `St` carries
the binding map (`inst`, indexed by the variable's unique index), the
trail (list of indices of variables bound since the start, most recent
first, mirroring the `Trace` linked list), and the allocation counter
(`Variable::timestamp`).  Recursive C++ procedures that can diverge
(unification through binding chains, resolution) take an explicit fuel
and return `none` when the fuel runs out; all functions are structurally
recursive on the fuel so that concrete runs evaluate by `rfl`.
-/

namespace Prolog

/-- A term: a variable identified by its unique index
(`Variable::index`), or a compound with a functor and argument list.
Atoms are interned strings compared by name (`Atom::equal`), so the
functor is modelled as a `String`; a zero-arity compound is an atomic
constant, exactly as in the C++ code. -/
inductive Term where
  | Var : Nat → Term
  | Compound : String → List Term → Term
deriving Repr

/-- The mutable state of the interpreter: `inst i` is the binding of
variable `i` (`none` = unbound, i.e. the C++ self-reference
`instance == this`), `trail` is the `Trace` history (indices of bound
variables, most recent first), `counter` is `Variable::timestamp`. -/
structure St where
  inst : Nat → Option Term
  trail : List Nat
  counter : Nat

/-- Bind variable `i` to term `t`: `Trace::Push(this); instance = t;`
from `Variable::unify` (and the same pattern in `Variable::copy`). -/
def bindVar (i : Nat) (t : Term) (st : St) : St :=
  ⟨fun j => if j = i then some t else st.inst j, i :: st.trail, st.counter⟩

/-- `a.unify(b)` of the C++ code, with explicit state and fuel.
Dispatch follows the virtual calls exactly:
* `Variable::unify(t)`: if unbound, push on the trail and bind
  (unconditional success, no occurs check); if bound, delegate to
  `instance->unify(t)`.
* `Compound::unify(t)` forwards to `t->unify_compound(this)`; if `t` is
  a variable this is `Variable::unify_compound`, i.e. `this->unify(c)`;
  if `t` is a compound `Compound::unify_compound` compares functors by
  atom name and arities, then unifies arguments left to right
  (receiver's argument on the left), short-circuiting on the first
  failure and keeping earlier bindings. -/
def unify : Nat → Term → Term → St → Option (Bool × St)
  | 0, _, _, _ => none
  | fuel+1, Term.Var i, b, st =>
      match st.inst i with
      | none => some (true, bindVar i b st)
      | some t => unify fuel t b st
  | fuel+1, Term.Compound f as, Term.Var j, st =>
      match st.inst j with
      | none => some (true, bindVar j (Term.Compound f as) st)
      | some t => unify fuel t (Term.Compound f as) st
  | fuel+1, Term.Compound f as, Term.Compound g bs, st =>
      if g = f ∧ bs.length = as.length then
        (bs.zip as).foldl
          (fun acc p =>
            match acc with
            | some (true, st') => unify fuel p.1 p.2 st'
            | r => r)
          (some (true, st))
      else some (false, st)

/-- The argument loop of `Compound::unify_compound`, as a standalone
function (the fold in `unify` is definitionally this). -/
def unifyArgs (fuel : Nat) (xs ys : List Term) (st : St) : Option (Bool × St) :=
  (xs.zip ys).foldl
    (fun acc p =>
      match acc with
      | some (true, st') => unify fuel p.1 p.2 st'
      | r => r)
    (some (true, st))

/-- `Trace::Undo(whereto)`: pop the trail, resetting each popped
variable to unbound (`Variable::reset`), until the trail equals the
checkpoint.  The C++ compares list positions by pointer; for the
disciplined use here (the checkpoint is always a suffix of the current
trail) value equality of the remaining list coincides with pointer
equality, and on an empty history the loop stops. -/
def undoAux (whereto : List Nat) : List Nat → (Nat → Option Term) → List Nat × (Nat → Option Term)
  | [], inst => ([], inst)
  | i :: rest, inst =>
      if i :: rest = whereto then (i :: rest, inst)
      else undoAux whereto rest (fun j => if j = i then none else inst j)

/-- `Trace::Undo` acting on the whole state. -/
def undo (whereto : List Nat) (st : St) : St :=
  ⟨(undoAux whereto st.trail st.inst).2, (undoAux whereto st.trail st.inst).1, st.counter⟩

/-- `Term::copy` with explicit state and fuel.
* `Variable::copy`: if bound, return the binding itself (no recursive
  copy); if unbound, allocate a fresh variable (`++timestamp`), bind
  the template variable to it through the trail, and return the fresh
  variable.
* `Compound::Compound(Compound*)`: same functor, arguments copied
  recursively left to right. -/
def copyTerm : Nat → Term → St → Option (Term × St)
  | 0, _, _ => none
  | _+1, Term.Var i, st =>
      match st.inst i with
      | some t => some (t, st)
      | none =>
          some (Term.Var (st.counter + 1),
            ⟨fun j => if j = i then some (Term.Var (st.counter + 1)) else st.inst j,
             i :: st.trail, st.counter + 1⟩)
  | fuel+1, Term.Compound f args, st =>
      (args.foldr
          (fun a rec st' =>
            match copyTerm fuel a st' with
            | none => none
            | some (a', st'') =>
                match rec st'' with
                | none => none
                | some (l, st₃) => some (a' :: l, st₃))
          (fun st' => some ([], st')) st).map
        (fun p => (Term.Compound f p.1, p.2))

/-- Copy of a list of terms, left to right, threading the state
(the fold inside `copyTerm`, and also `Goal::copy`). -/
def copyArgs (fuel : Nat) (args : List Term) (st : St) : Option (List Term × St) :=
  args.foldr
    (fun a rec st' =>
      match copyTerm fuel a st' with
      | none => none
      | some (a', st'') =>
          match rec st'' with
          | none => none
          | some (l, st₃) => some (a' :: l, st₃))
    (fun st' => some ([], st')) st

/-- A clause: head compound and body goal list (empty list = no body,
the C++ `nullptr`). -/
structure Clause where
  head : Term
  body : List Term

/-- `Clause::copy`: copy the head, then the body, in one pass (the two
argument expressions of `new Clause(...)` are modelled head first; the
renaming cache is shared, so variables occurring in both head and body
are renamed consistently either way). -/
def copyClause (fuel : Nat) (c : Clause) (st : St) : Option (Clause × St) :=
  match copyTerm fuel c.head st with
  | none => none
  | some (h, st₁) =>
      (copyArgs fuel c.body st₁).map (fun p => (⟨h, p.1⟩, p.2))

/-- `Goal::append`: `new Goal(head, tail ? tail->append(l) : nullptr)`.
Note that at the last cell the C++ attaches `nullptr`, not `l`: the
argument is dropped. -/
def goalAppend : List Term → List Term → List Term
  | [], _ => []
  | h :: t, l => h :: (if t.isEmpty then [] else goalAppend t l)

/-- Follow variable bindings and rebuild the term they denote
(the traversal performed by `print`), with fuel against cyclic
bindings. -/
def resolveTerm : Nat → St → Term → Option Term
  | 0, _, _ => none
  | rf+1, st, Term.Var i =>
      match st.inst i with
      | none => some (Term.Var i)
      | some t => resolveTerm rf st t
  | rf+1, st, Term.Compound f args =>
      (args.foldr
          (fun a rec =>
            match resolveTerm rf st a, rec with
            | some a', some l => some (a' :: l)
            | _, _ => none)
          (some [])).map (Term.Compound f)

/-- `Term::print` as a string: a bound variable prints its binding, an
unbound variable prints an underscore and its index, a compound prints
the functor and, when the arity is positive, the parenthesized
comma-separated arguments. -/
def renderTerm : Nat → St → Term → Option String
  | 0, _, _ => none
  | rf+1, st, Term.Var i =>
      match st.inst i with
      | none => some ("_" ++ toString i)
      | some t => renderTerm rf st t
  | rf+1, st, Term.Compound f args =>
      if args.isEmpty then some f
      else
        (args.foldr
            (fun a rec =>
              match renderTerm rf st a, rec with
              | some s, some l => some (s :: l)
              | _, _ => none)
            (some [])).map
          (fun l => f ++ "(" ++ String.intercalate "," l ++ ")")

/-- The variable/name table handed to the solver (`VarMapping`):
parallel arrays of variables and display names plus a count. -/
structure VarMapping where
  vars : List Nat
  names : List String
  count : Nat

/-- The printing loop of `VarMapping::show_answer`: one
`name = value` line per table entry, in order. -/
def answerLines : Nat → St → List (String × Nat) → Option (List String)
  | _, _, [] => some []
  | rf, st, (n, v) :: rest =>
      match renderTerm rf st (Term.Var v) with
      | none => none
      | some s => (answerLines rf st rest).map (fun ls => (n ++ " = " ++ s) :: ls)

/-- `VarMapping::show_answer`: with zero variables print `yes`,
otherwise print one `name = value` line per variable, in order. -/
def show_answer (m : VarMapping) (rf : Nat) (st : St) : Option (List String) :=
  if m.count = 0 then some ["yes"]
  else answerLines rf st ((m.names.zip m.vars).take m.count)

/-- `Goal::solve`, the clause loop.  `g :: rest` is the current goal
list, `todo` the clauses still to try at this choice point, `prog` the
whole program (used by recursive calls), `vars` the indices of the
query variables reported on success (the reporter is modelled as
capturing the resolved bindings of those variables, resolved with fuel
`rf`).  For each clause: checkpoint the trail, copy the clause, undo
the renaming bindings, unify the goal with the copied head; on success
extend the goal list with the copied body (`cl->body ?
cl->body->append(tail) : tail`) and recurse, or report a solution when
no goals remain; in every case undo to the checkpoint and continue with
the next clause.  Returns the reported solutions in order and the final
state, or `none` if the fuel ran out. -/
def solveC : Nat → Term → List Term → List Clause → List Clause → List Nat → Nat → St →
    Option (List (List (Option Term)) × St)
  | 0, _, _, _, _, _, _, _ => none
  | _+1, _, _, _, [], _, _, st => some ([], st)
  | fuel+1, g, rest, prog, c :: cs, vars, rf, st =>
      match copyClause fuel c st with
      | none => none
      | some (cl, st₁) =>
          match unify fuel g cl.head (undo st.trail st₁) with
          | none => none
          | some (false, st₃) =>
              solveC fuel g rest prog cs vars rf (undo st.trail st₃)
          | some (true, st₃) =>
              match (if cl.body.isEmpty then rest else goalAppend cl.body rest) with
              | [] =>
                  match solveC fuel g rest prog cs vars rf (undo st.trail st₃) with
                  | none => none
                  | some (res, st₄) =>
                      some ((vars.map (fun v => resolveTerm rf st₃ (Term.Var v))) :: res, st₄)
              | g' :: rest' =>
                  match solveC fuel g' rest' prog prog vars rf st₃ with
                  | none => none
                  | some (res₁, st₄) =>
                      match solveC fuel g rest prog cs vars rf (undo st.trail st₄) with
                      | none => none
                      | some (res₂, st₅) => some (res₁ ++ res₂, st₅)

/-- Entry point: `goal->solve(prog, 0, vars)` on a goal list. -/
def solveGoal (fuel : Nat) (goals : List Term) (prog : List Clause) (vars : List Nat)
    (rf : Nat) (st : St) : Option (List (List (Option Term)) × St) :=
  match goals with
  | [] => some ([], st)
  | g :: rest => solveC fuel g rest prog prog vars rf st

/-! ### The sample program of `main()`

`main` allocates the variables in the order X, L, M, N, I, J, so they
get indices 1..6 and `timestamp` is 6 when solving starts. -/

/-- `nil`. -/
def nilT : Term := Term.Compound "nil" []

/-- `cons(a, b)`. -/
def consT (a b : Term) : Term := Term.Compound "cons" [a, b]

/-- `app(a, b, c)`. -/
def appT (a b c : Term) : Term := Term.Compound "app" [a, b, c]

/-- The constant `1`. -/
def oneT : Term := Term.Compound "1" []

/-- The constant `2`. -/
def twoT : Term := Term.Compound "2" []

/-- The constant `3`. -/
def threeT : Term := Term.Compound "3" []

/-- `cons(1, cons(2, cons(3, nil)))`. -/
def list123 : Term := consT oneT (consT twoT (consT threeT nilT))

/-- Clause 1: `app(nil, X, X).` with X = variable 1. -/
def clause1 : Clause := ⟨appT nilT (Term.Var 1) (Term.Var 1), []⟩

/-- Clause 2: `app(cons(X,L), M, cons(X,N)) :- app(L, M, N).` with
X, L, M, N = variables 1, 2, 3, 4 (`main` shares `var_x` between the
two clauses). -/
def clause2 : Clause :=
  ⟨appT (consT (Term.Var 1) (Term.Var 2)) (Term.Var 3) (consT (Term.Var 1) (Term.Var 4)),
   [appT (Term.Var 2) (Term.Var 3) (Term.Var 4)]⟩

/-- The query `app(I, J, cons(1, cons(2, cons(3, nil))))` with
I, J = variables 5, 6. -/
def query : Term := appT (Term.Var 5) (Term.Var 6) list123

/-- The state at the start of `main`'s solve calls: no bindings, empty
trail, six variables allocated. -/
def st0 : St := ⟨fun _ => none, [], 6⟩

/-- Reported solution `I = nil, J = [1,2,3]`. -/
def ansSplit0 : List (Option Term) := [some nilT, some list123]

/-- Reported solution `I = [1], J = [2,3]`. -/
def ansSplit1 : List (Option Term) :=
  [some (consT oneT nilT), some (consT twoT (consT threeT nilT))]

/-- Reported solution `I = [1,2], J = [3]`. -/
def ansSplit2 : List (Option Term) :=
  [some (consT oneT (consT twoT nilT)), some (consT threeT nilT)]

/-- Reported solution `I = [1,2,3], J = nil`. -/
def ansSplit3 : List (Option Term) := [some list123, some nilT]

/-! ### A two-fact program for the enumeration property -/

/-- `p(a).` -/
def clauseA : Clause := ⟨Term.Compound "p" [Term.Compound "a" []], []⟩

/-- `p(b).` -/
def clauseB : Clause := ⟨Term.Compound "p" [Term.Compound "b" []], []⟩

/-- The query `p(X)` with X = variable 1. -/
def queryP : Term := Term.Compound "p" [Term.Var 1]

/-- Start state for the `p(X)` query: one variable allocated. -/
def stP : St := ⟨fun _ => none, [], 1⟩

/-- The run of `p(X)` against the single-clause program `p(a).`
(used to exhibit the frame property of the clause loop on a concrete
run). -/
def solvePA : Option (List (List (Option Term)) × St) :=
  solveC 3 queryP [] [clauseA] [clauseA] [1] 3 stP

/-- The final state of that run. -/
def stPA : St := (solvePA.map Prod.snd).getD stP

/-- The solutions reported by that run. -/
def resPA : List (List (Option Term)) := (solvePA.map Prod.fst).getD []

/-! ### Specification-side predicates -/

/-- Sequential unification of corresponding list elements, threading
the state left to right, all calls succeeding.  This is the
specification shape for the argument loop of
`Compound::unify_compound`. -/
inductive UnifyAll (fuel : Nat) : List Term → List Term → St → St → Prop where
  | nil (st : St) : UnifyAll fuel [] [] st st
  | cons {x y : Term} {xs ys : List Term} {st st₁ st₂ : St} :
      unify fuel x y st = some (true, st₁) → UnifyAll fuel xs ys st₁ st₂ →
      UnifyAll fuel (x :: xs) (y :: ys) st st₂

/-- Depth-bounded equality of the dereferenced structural forms of two
terms under the bindings of `st`: the terms agree once variable
bindings are followed, up to depth `n` (where following one binding or
unfolding one compound costs one unit).  `∀ n, DEq st n a b` says the
(possibly infinite, since there is no occurs check) dereferenced trees
are identical. -/
inductive DEq (st : St) : Nat → Term → Term → Prop where
  | zero (a b : Term) : DEq st 0 a b
  | refl (n : Nat) (a : Term) : DEq st n a a
  | varL {i : Nat} {t b : Term} {n : Nat} :
      st.inst i = some t → DEq st n t b → DEq st (n+1) (Term.Var i) b
  | varR {j : Nat} {t a : Term} {n : Nat} :
      st.inst j = some t → DEq st n a t → DEq st (n+1) a (Term.Var j)
  | comp {f : String} {as bs : List Term} {n : Nat} :
      as.length = bs.length → (∀ p ∈ as.zip bs, DEq st n p.1 p.2) →
      DEq st (n+1) (Term.Compound f as) (Term.Compound f bs)

/-- `st'` extends `st` by binding some previously unbound variables:
the trail grew by a block `Δ` of pushed variables, every pushed
variable was unbound in `st`, and every other variable kept its
binding.  Every unify/copy call transforms the state this way. -/
def Ext (st st' : St) : Prop :=
  ∃ Δ, st'.trail = Δ ++ st.trail ∧ (∀ i ∈ Δ, st.inst i = none) ∧
    (∀ j, j ∉ Δ → st'.inst j = st.inst j)

/-- States reachable from `s` by a sequence of unification and copy
(clause instantiation) operations, the operations named by the claim
about `Trace::Undo`. -/
inductive Steps : St → St → Prop where
  | refl (s : St) : Steps s s
  | unifyStep {s₀ s₁ s₂ : St} {fuel : Nat} {a b : Term} {r : Bool} :
      Steps s₀ s₁ → unify fuel a b s₁ = some (r, s₂) → Steps s₀ s₂
  | copyStep {s₀ s₁ s₂ : St} {fuel : Nat} {t u : Term} :
      Steps s₀ s₁ → copyTerm fuel t s₁ = some (u, s₂) → Steps s₀ s₂

/-! ## Theorems -/

/-- Unfolding: `a.unify(b)` on two compounds forwards to
`b->unify_compound(a)`, which checks functor and arity and then runs
the argument loop with `b`'s arguments on the receiver side. -/
theorem unify_compound_eq (fuel : Nat) (f g : String) (as bs : List Term) (st : St) :
    unify (fuel+1) (Term.Compound f as) (Term.Compound g bs) st =
      if g = f ∧ bs.length = as.length then unifyArgs fuel bs as st
      else some (false, st) := rfl

/-- Unfolding: copying a compound copies the arguments left to right
through the state. -/
theorem copyTerm_compound_eq (fuel : Nat) (f : String) (args : List Term) (st : St) :
    copyTerm (fuel+1) (Term.Compound f args) st =
      (copyArgs fuel args st).map (fun p => (Term.Compound f p.1, p.2)) := rfl

/-- Once the argument loop has failed (or run out of fuel), the
remaining iterations change nothing. -/
theorem foldl_unify_none (fuel : Nat) (l : List (Term × Term)) :
    l.foldl
      (fun acc p =>
        match acc with
        | some (true, st') => unify fuel p.1 p.2 st'
        | r' => r')
      none = none := by
  induction l with
  | nil => rfl
  | cons p l ih => exact ih

/-- Once the argument loop has failed, the result (including the state
of the failing call) is returned unchanged: the C++ loop returns
immediately on the first failing argument. -/
theorem foldl_unify_false (fuel : Nat) (l : List (Term × Term)) (s : St) :
    l.foldl
      (fun acc p =>
        match acc with
        | some (true, st') => unify fuel p.1 p.2 st'
        | r' => r')
      (some (false, s)) = some (false, s) := by
  induction l with
  | nil => rfl
  | cons p l ih => exact ih

/-- The empty argument loop succeeds without touching the state. -/
theorem unifyArgs_nil (fuel : Nat) (ys : List Term) (st : St) :
    unifyArgs fuel [] ys st = some (true, st) := rfl

/-- One iteration of the argument loop: unify the first pair; on
success continue from the new state, otherwise return at once. -/
theorem unifyArgs_cons (fuel : Nat) (x y : Term) (xs ys : List Term) (st : St) :
    unifyArgs fuel (x :: xs) (y :: ys) st =
      match unify fuel x y st with
      | some (true, st') => unifyArgs fuel xs ys st'
      | r => r := by
  have hL : unifyArgs fuel (x :: xs) (y :: ys) st =
      (xs.zip ys).foldl
        (fun acc p =>
          match acc with
          | some (true, st') => unify fuel p.1 p.2 st'
          | r' => r')
        (unify fuel x y st) := rfl
  rw [hL]
  cases h : unify fuel x y st with
  | none => exact foldl_unify_none fuel _
  | some rs =>
      match rs with
      | (false, s) => exact foldl_unify_false fuel _ s
      | (true, s) => rfl

/-- After the attempt on the first clause of the list — successful or
not — the clause loop goes on to process the remaining clauses from
some intermediate state, and the solutions it reported for the first
clause are a prefix of the total report. -/
theorem solveC_cons_decomp (fuel : Nat) (g : Term) (rest : List Term) (prog : List Clause)
    (c : Clause) (cs : List Clause) (vars : List Nat) (rf : Nat) (st : St)
    (res : List (List (Option Term))) (st' : St)
    (h : solveC (fuel+1) g rest prog (c :: cs) vars rf st = some (res, st')) :
    ∃ pre st₁ res₂, res = pre ++ res₂ ∧
      solveC fuel g rest prog cs vars rf st₁ = some (res₂, st') := by
  rw [solveC] at h
  split at h
  · exact absurd h (by simp)
  · split at h
    · exact absurd h (by simp)
    · exact ⟨[], _, res, by simp, h⟩
    · rename_i stM hu
      split at h
      · split at h
        · exact absurd h (by simp)
        · rename_i res0 st4 heq
          simp only [Option.some.injEq, Prod.mk.injEq] at h
          obtain ⟨h1, h2⟩ := h
          refine ⟨[vars.map (fun v => resolveTerm rf stM (Term.Var v))],
            undo st.trail stM, res0, by rw [← h1]; rfl, ?_⟩
          rw [h2] at heq
          exact heq
      · split at h
        · exact absurd h (by simp)
        · rename_i res1 st4 heq1
          split at h
          · exact absurd h (by simp)
          · rename_i res2 st5 heq2
            simp only [Option.some.injEq, Prod.mk.injEq] at h
            obtain ⟨h1, h2⟩ := h
            refine ⟨res1, undo st.trail st4, res2, by rw [← h1], ?_⟩
            rw [h2] at heq2
            exact heq2

/-! ### The claims -/

/-- C1.  The claim says `Goal::append` produces the concatenation of
the two sequences.  The code does not: the recursion ends with
`new Goal(head, tail ? tail->append(l) : nullptr)`, attaching `nullptr`
instead of `l` at the last cell, so `g.append(l)` rebuilds `g` and
drops `l` entirely (first conjunct); in particular on the concrete
goal lists `[p]` and `[q]` the result is `[p]`, not `[p, q]` (second
conjunct).  The repository's own run never notices because every goal
list in it is a singleton with an empty remainder. -/
theorem goalAppend_drops_argument :
    (∀ g l : List Term, goalAppend g l = g) ∧
      goalAppend [Term.Compound "p" []] [Term.Compound "q" []] = [Term.Compound "p" []] := by
  constructor
  · intro g
    induction g with
    | nil => intro l; rfl
    | cons h t ih =>
        intro l
        cases t with
        | nil => rfl
        | cons x xs => simpa [goalAppend] using ih l
  · rfl

set_option maxHeartbeats 4000000 in
/-- C2.  Solving `app(I, J, cons(1, cons(2, cons(3, nil))))` against the
two `app` clauses reports exactly the four prefix/suffix splits of the
three-element list, for both orderings of the clauses: the normal order
produces them smallest prefix first, the reversed order produces the
same four solutions in exactly the reverse order (the solution set is
the same, only the search order changes). -/
theorem solve_app_query_solutions :
    (solveGoal 14 [query] [clause1, clause2] [5, 6] 14 st0).map Prod.fst
        = some [ansSplit0, ansSplit1, ansSplit2, ansSplit3]
    ∧ (solveGoal 14 [query] [clause2, clause1] [5, 6] 14 st0).map Prod.fst
        = some [ansSplit3, ansSplit2, ansSplit1, ansSplit0]
    ∧ ([ansSplit3, ansSplit2, ansSplit1, ansSplit0] : List (List (Option Term)))
        = [ansSplit0, ansSplit1, ansSplit2, ansSplit3].reverse := by
  refine ⟨?_, ?_, by simp⟩
  · simp [solveGoal, solveC, copyClause, copyTerm, copyArgs, unify, undo, undoAux, bindVar,
      goalAppend, resolveTerm, st0, nilT, consT, appT, oneT, twoT, threeT, list123,
      clause1, clause2, query, ansSplit0, ansSplit1, ansSplit2, ansSplit3]
  · simp [solveGoal, solveC, copyClause, copyTerm, copyArgs, unify, undo, undoAux, bindVar,
      goalAppend, resolveTerm, st0, nilT, consT, appT, oneT, twoT, threeT, list123,
      clause1, clause2, query, ansSplit0, ansSplit1, ansSplit2, ansSplit3]

/-- C3.  For the program `p(a). p(b).` and the query `p(X)`, solving
reports exactly the two solutions `X = a` then `X = b`, in program
order (first conjunct).  The clause loop never stops early on a
success: whatever the outcome of the attempt on the first clause, the
loop continues through the whole remaining clause list, whose report is
a suffix of the total report (second conjunct). -/
theorem solve_reports_all_solutions :
    ((solveGoal 10 [queryP] [clauseA, clauseB] [1] 10 stP).map Prod.fst
        = some [[some (Term.Compound "a" [])], [some (Term.Compound "b" [])]])
    ∧ (∀ fuel g rest prog c cs vars rf st res st',
        solveC (fuel+1) g rest prog (c :: cs) vars rf st = some (res, st') →
        ∃ pre st₁ res₂, res = pre ++ res₂ ∧
          solveC fuel g rest prog cs vars rf st₁ = some (res₂, st')) := by
  constructor
  · simp [solveGoal, solveC, copyClause, copyTerm, copyArgs, unify, undo, undoAux, bindVar,
      goalAppend, resolveTerm, stP, clauseA, clauseB, queryP]
  · intro fuel g rest prog c cs vars rf st res st' h
    exact solveC_cons_decomp fuel g rest prog c cs vars rf st res st' h

/-- A state extends itself (no new bindings). -/
theorem ext_refl (st : St) : Ext st st :=
  ⟨[], by simp, by simp, fun j _ => rfl⟩

/-- Extension steps compose. -/
theorem ext_trans {s s₁ s₂ : St} (h1 : Ext s s₁) (h2 : Ext s₁ s₂) : Ext s s₂ := by
  obtain ⟨d1, ht1, hn1, hu1⟩ := h1
  obtain ⟨d2, ht2, hn2, hu2⟩ := h2
  refine ⟨d2 ++ d1, by rw [ht2, ht1, List.append_assoc], ?_, ?_⟩
  · intro i hi
    rcases List.mem_append.1 hi with hi | hi
    · by_cases hd : i ∈ d1
      · exact hn1 i hd
      · rw [← hu1 i hd]; exact hn2 i hi
    · exact hn1 i hi
  · intro j hj
    rw [List.mem_append] at hj
    push_neg at hj
    rw [hu2 j hj.1, hu1 j hj.2]

/-- An extension never changes an existing binding: a variable bound
in `st` is bound to the same term in every extension of `st`. -/
theorem ext_inst_mono {st st' : St} (h : Ext st st') {i : Nat} {t : Term}
    (hb : st.inst i = some t) : st'.inst i = some t := by
  obtain ⟨d, ht, hn, hu⟩ := h
  by_cases hd : i ∈ d
  · rw [hn i hd] at hb; exact absurd hb (by simp)
  · rw [hu i hd]; exact hb

/-- Binding one unbound variable is an extension step. -/
theorem bindVar_ext {st : St} {i : Nat} (t : Term) (h : st.inst i = none) :
    Ext st (bindVar i t st) := by
  refine ⟨[i], rfl, ?_, ?_⟩
  · intro j hj
    rw [List.mem_singleton] at hj
    rw [hj]; exact h
  · intro j hj
    rw [List.mem_singleton] at hj
    show (if j = i then some t else st.inst j) = st.inst j
    rw [if_neg hj]

/-- The argument loop only extends the state, provided each single
unification does. -/
theorem unifyArgs_ext_of (fuel : Nat)
    (hP : ∀ a b st r st', unify fuel a b st = some (r, st') → Ext st st') :
    ∀ xs ys st r st', unifyArgs fuel xs ys st = some (r, st') → Ext st st' := by
  intro xs
  induction xs with
  | nil =>
      intro ys st r st' h
      rw [unifyArgs_nil] at h
      simp only [Option.some.injEq, Prod.mk.injEq] at h
      rw [← h.2]
      exact ext_refl st
  | cons x xs ih =>
      intro ys st r st' h
      cases ys with
      | nil =>
          have : unifyArgs fuel (x :: xs) [] st = some (true, st) := rfl
          rw [this] at h
          simp only [Option.some.injEq, Prod.mk.injEq] at h
          rw [← h.2]
          exact ext_refl st
      | cons y ys =>
          rw [unifyArgs_cons] at h
          cases hu : unify fuel x y st with
          | none => rw [hu] at h; exact absurd h (by simp)
          | some rs =>
              match rs, hu with
              | (false, s), hu =>
                  rw [hu] at h
                  simp only [Option.some.injEq, Prod.mk.injEq] at h
                  rw [← h.2]
                  exact hP x y st false s hu
              | (true, s), hu =>
                  rw [hu] at h
                  exact ext_trans (hP x y st true s hu) (ih ys s r st' h)

/-- Unification only extends the state: it pushes each variable it
binds (which was unbound) and touches nothing else. -/
theorem unify_ext : ∀ fuel a b st r st', unify fuel a b st = some (r, st') → Ext st st' := by
  intro fuel
  induction fuel with
  | zero => intro a b st r st' h; exact absurd h (by simp [unify])
  | succ fuel ih =>
      intro a b st r st' h
      match a, b with
      | Term.Var i, b =>
          rw [unify] at h
          cases hb : st.inst i with
          | none =>
              rw [hb] at h
              simp only [Option.some.injEq, Prod.mk.injEq] at h
              rw [← h.2]
              exact bindVar_ext b hb
          | some t =>
              rw [hb] at h
              exact ih t b st r st' h
      | Term.Compound f as, Term.Var j =>
          rw [unify] at h
          cases hb : st.inst j with
          | none =>
              rw [hb] at h
              simp only [Option.some.injEq, Prod.mk.injEq] at h
              rw [← h.2]
              exact bindVar_ext _ hb
          | some t =>
              rw [hb] at h
              exact ih t (Term.Compound f as) st r st' h
      | Term.Compound f as, Term.Compound g bs =>
          rw [unify_compound_eq] at h
          split at h
          · exact unifyArgs_ext_of fuel (ih · · · · ·) bs as st r st' h
          · simp only [Option.some.injEq, Prod.mk.injEq] at h
            rw [← h.2]
            exact ext_refl st

/-- Copying no arguments returns the state unchanged. -/
theorem copyArgs_nil (fuel : Nat) (st : St) : copyArgs fuel [] st = some ([], st) := rfl

/-- One step of the argument-copy loop. -/
theorem copyArgs_cons (fuel : Nat) (a : Term) (as : List Term) (st : St) :
    copyArgs fuel (a :: as) st =
      match copyTerm fuel a st with
      | none => none
      | some (a', st'') =>
          match copyArgs fuel as st'' with
          | none => none
          | some (l, st₃) => some (a' :: l, st₃) := rfl

-- Ext for copy
/-- Copying an unbound variable is an extension step: the template
variable (not the fresh one) is pushed on the trail. -/
theorem copyVar_ext (st : St) (i : Nat) (h : st.inst i = none) :
    Ext st ⟨fun j => if j = i then some (Term.Var (st.counter + 1)) else st.inst j,
            i :: st.trail, st.counter + 1⟩ := by
  refine ⟨[i], rfl, ?_, ?_⟩
  · intro j hj
    rw [List.mem_singleton] at hj
    rw [hj]; exact h
  · intro j hj
    rw [List.mem_singleton] at hj
    show (if j = i then _ else st.inst j) = st.inst j
    rw [if_neg hj]

/-- The copy loop only extends the state, provided each single copy
does. -/
theorem copyArgs_ext_of (fuel : Nat)
    (hP : ∀ t st u st', copyTerm fuel t st = some (u, st') → Ext st st') :
    ∀ args st l st', copyArgs fuel args st = some (l, st') → Ext st st' := by
  intro args
  induction args with
  | nil =>
      intro st l st' h
      rw [copyArgs_nil] at h
      simp only [Option.some.injEq, Prod.mk.injEq] at h
      rw [← h.2]
      exact ext_refl st
  | cons a as ih =>
      intro st l st' h
      rw [copyArgs_cons] at h
      cases hc : copyTerm fuel a st with
      | none => rw [hc] at h; exact absurd h (by simp)
      | some p =>
          match p, hc with
          | (a', s₁), hc =>
              rw [hc] at h
              replace h : (match copyArgs fuel as s₁ with
                  | none => none
                  | some (l, st₃) => some (a' :: l, st₃)) = some (l, st') := h
              cases hr : copyArgs fuel as s₁ with
              | none => rw [hr] at h; exact absurd h (by simp)
              | some q =>
                  match q, hr with
                  | (l', s₂), hr =>
                      rw [hr] at h
                      simp only [Option.some.injEq, Prod.mk.injEq] at h
                      rw [← h.2]
                      exact ext_trans (hP a st a' s₁ hc) (ih s₁ l' s₂ hr)

/-- `Term::copy` only extends the state: it binds (and pushes) only
previously unbound template variables. -/
theorem copyTerm_ext : ∀ fuel t st u st', copyTerm fuel t st = some (u, st') → Ext st st' := by
  intro fuel
  induction fuel with
  | zero => intro t st u st' h; exact absurd h (by simp [copyTerm])
  | succ fuel ih =>
      intro t st u st' h
      match t with
      | Term.Var i =>
          rw [copyTerm] at h
          cases hb : st.inst i with
          | none =>
              rw [hb] at h
              simp only [Option.some.injEq, Prod.mk.injEq] at h
              rw [← h.2]
              exact copyVar_ext st i hb
          | some t' =>
              rw [hb] at h
              simp only [Option.some.injEq, Prod.mk.injEq] at h
              rw [← h.2]
              exact ext_refl st
      | Term.Compound f args =>
          rw [copyTerm_compound_eq] at h
          cases hc : copyArgs fuel args st with
          | none => rw [hc] at h; exact absurd h (by simp)
          | some p =>
              match p, hc with
              | (l, s₁), hc =>
                  rw [hc] at h
                  simp only [Option.map_some', Option.some.injEq, Prod.mk.injEq] at h
                  rw [← h.2]
                  exact copyArgs_ext_of fuel (ih · · · ·) args st l s₁ hc

/-- `Clause::copy` only extends the state. -/
theorem copyClause_ext (fuel : Nat) (c : Clause) (st : St) (cl : Clause) (st' : St)
    (h : copyClause fuel c st = some (cl, st')) : Ext st st' := by
  rw [copyClause] at h
  cases hc : copyTerm fuel c.head st with
  | none => rw [hc] at h; exact absurd h (by simp)
  | some p =>
      match p, hc with
      | (hd, s₁), hc =>
          rw [hc] at h
          replace h : (copyArgs fuel c.body s₁).map (fun p => (Clause.mk hd p.1, p.2))
              = some (cl, st') := h
          cases hb : copyArgs fuel c.body s₁ with
          | none => rw [hb] at h; exact absurd h (by simp)
          | some q =>
              match q, hb with
              | (l, s₂), hb =>
                  rw [hb] at h
                  simp only [Option.map_some', Option.some.injEq, Prod.mk.injEq] at h
                  rw [← h.2]
                  exact ext_trans (copyTerm_ext fuel c.head st hd s₁ hc)
                    (copyArgs_ext_of fuel (copyTerm_ext fuel · · · ·) c.body s₁ l s₂ hb)

/-- `Trace::Undo` at the current position stops at once. -/
theorem undoAux_self (tr : List Nat) (inst : Nat → Option Term) :
    undoAux tr tr inst = (tr, inst) := by
  cases tr with
  | nil => rfl
  | cons i rest => rw [undoAux, if_pos rfl]

/-- `Trace::Undo` to the current trail is a no-op. -/
theorem undo_self (st : St) : undo st.trail st = st := by
  rw [undo, undoAux_self]

/-- `Trace::Undo` to a checkpoint that is a suffix of the trail pops
exactly the block pushed since the checkpoint, resetting each popped
variable to unbound and leaving every other variable alone. -/
theorem undoAux_append :
    ∀ (Δ tr : List Nat) (inst : Nat → Option Term),
      (undoAux tr (Δ ++ tr) inst).1 = tr ∧
      ∀ j, (undoAux tr (Δ ++ tr) inst).2 j = if j ∈ Δ then none else inst j := by
  intro Δ
  induction Δ with
  | nil =>
      intro tr inst
      rw [List.nil_append, undoAux_self]
      exact ⟨rfl, fun j => by simp⟩
  | cons d Δ ih =>
      intro tr inst
      have hne : d :: (Δ ++ tr) ≠ tr := by
        intro hEq
        have hlen := congrArg List.length hEq
        simp only [List.length_cons, List.length_append] at hlen
        omega
      rw [List.cons_append, undoAux, if_neg hne]
      obtain ⟨h1, h2⟩ := ih tr (fun j => if j = d then none else inst j)
      refine ⟨h1, fun j => ?_⟩
      rw [h2 j]
      by_cases hj : j ∈ Δ
      · simp [hj]
      · by_cases hd : j = d <;> simp [hj, hd]

/-- Undoing an extension restores the starting state exactly: the
trail returns to the checkpoint and every variable has its old
binding (the popped ones were unbound then). -/
theorem undo_of_ext {st st' : St} (h : Ext st st') :
    (undo st.trail st').trail = st.trail ∧ ∀ j, (undo st.trail st').inst j = st.inst j := by
  obtain ⟨Δ, ht, hn, hu⟩ := h
  have hx := undoAux_append Δ st.trail st'.inst
  rw [← ht] at hx
  refine ⟨?_, fun j => ?_⟩
  · show (undoAux st.trail st'.trail st'.inst).1 = st.trail
    exact hx.1
  · show (undoAux st.trail st'.trail st'.inst).2 j = st.inst j
    rw [hx.2 j]
    by_cases hj : j ∈ Δ
    · rw [if_pos hj, hn j hj]
    · rw [if_neg hj, hu j hj]

/-- A sequence of unify/copy operations is an extension. -/
theorem steps_ext {s₀ s : St} (h : Steps s₀ s) : Ext s₀ s := by
  induction h with
  | refl => exact ext_refl _
  | unifyStep hs hu ih => exact ext_trans ih (unify_ext _ _ _ _ _ _ hu)
  | copyStep hs hc ih => exact ext_trans ih (copyTerm_ext _ _ _ _ _ hc)

/-- C7.  For a checkpoint `st₀.trail` taken with `Trace::Note` and any
sequence of unify/copy operations leading from `st₀` to `st`,
`Trace::Undo` back to the checkpoint restores the trail to exactly the
checkpoint position, resets to unbound every variable pushed since the
checkpoint (the block `Δ` the trail grew by), and is a no-op when
nothing was pushed. -/
theorem undo_restores_checkpoint (st₀ st : St) (h : Steps st₀ st) :
    ((undo st₀.trail st).trail = st₀.trail) ∧
    (∃ Δ, st.trail = Δ ++ st₀.trail ∧ ∀ i ∈ Δ, (undo st₀.trail st).inst i = none) ∧
    (st.trail = st₀.trail → undo st₀.trail st = st) := by
  have hext := steps_ext h
  obtain ⟨hu1, hu2⟩ := undo_of_ext hext
  obtain ⟨Δ, ht, hn, -⟩ := hext
  refine ⟨hu1, ⟨Δ, ht, fun i hi => ?_⟩, fun htr => ?_⟩
  · rw [hu2 i, hn i hi]
  · rw [← htr]
    exact undo_self st

/-- A state with the same trail and bindings as an extension is itself
an extension. -/
theorem ext_congr {s s₁ s₂ : St} (h : Ext s s₁) (htr : s₂.trail = s₁.trail)
    (hin : ∀ i, s₂.inst i = s₁.inst i) : Ext s s₂ := by
  obtain ⟨Δ, ht, hn, hu⟩ := h
  exact ⟨Δ, by rw [htr, ht], hn, fun j hj => by rw [hin j, hu j hj]⟩

/-- C8.  The frame property of the clause loop: whatever `solve` does —
every clause attempt undoes the trail back to the checkpoint taken
before the attempt, whether head unification failed or succeeded and
the recursive solve returned — the state after the loop has exactly
the variable bindings and the trail it started with (only the fresh
variable counter may have advanced); no binding made inside a failed
or completed branch remains visible. -/
theorem solve_preserves_bindings :
    ∀ fuel g rest prog cs vars rf st res st',
      solveC fuel g rest prog cs vars rf st = some (res, st') →
      (∀ i, st'.inst i = st.inst i) ∧ st'.trail = st.trail := by
  intro fuel
  induction fuel with
  | zero => intro g rest prog cs vars rf st res st' h; exact absurd h (by simp [solveC])
  | succ fuel ih =>
      intro g rest prog cs vars rf st res st' h
      match cs with
      | [] =>
          replace h : some (([] : List (List (Option Term))), st) = some (res, st') := h
          simp only [Option.some.injEq, Prod.mk.injEq] at h
          rw [← h.2]
          exact ⟨fun i => rfl, rfl⟩
      | c :: cs =>
          rw [solveC] at h
          split at h
          · exact absurd h (by simp)
          · rename_i p cl st₁ hc
            have hext1 : Ext st st₁ := copyClause_ext fuel c st cl st₁ hc
            have hu2 := undo_of_ext hext1
            split at h
            · exact absurd h (by simp)
            · -- unify failed
              rename_i st₃ hu
              have hext3 : Ext (undo st.trail st₁) st₃ := unify_ext fuel _ _ _ _ _ hu
              obtain ⟨ihi, iht⟩ := ih g rest prog cs vars rf _ res st' h
              have hEq : Ext st st₃ := ext_trans (ext_congr (ext_refl st) hu2.1 hu2.2) hext3
              have hu4 := undo_of_ext hEq
              constructor
              · intro i
                rw [ihi i, hu4.2 i]
              · rw [iht, hu4.1]
            · -- unify succeeded
              rename_i st₃ hu
              have hext3 : Ext (undo st.trail st₁) st₃ := unify_ext fuel _ _ _ _ _ hu
              have hEq3 : Ext st st₃ := ext_trans (ext_congr (ext_refl st) hu2.1 hu2.2) hext3
              split at h
              · -- no goals left: report, undo, continue
                split at h
                · exact absurd h (by simp)
                · rename_i res0 st₄ heq
                  simp only [Option.some.injEq, Prod.mk.injEq] at h
                  obtain ⟨h1, h2⟩ := h
                  have hu4 := undo_of_ext hEq3
                  obtain ⟨ihi, iht⟩ := ih g rest prog cs vars rf _ res0 st₄ heq
                  rw [← h2]
                  constructor
                  · intro i
                    rw [ihi i, hu4.2 i]
                  · rw [iht, hu4.1]
              · -- recurse on extended goal list
                split at h
                · exact absurd h (by simp)
                · rename_i res1 st₄ heq1
                  split at h
                  · exact absurd h (by simp)
                  · rename_i res2 st₅ heq2
                    simp only [Option.some.injEq, Prod.mk.injEq] at h
                    obtain ⟨h1, h2⟩ := h
                    obtain ⟨ihi1, iht1⟩ := ih _ _ prog prog vars rf st₃ res1 st₄ heq1
                    have hEq4 : Ext st st₄ := ext_congr hEq3 iht1 ihi1
                    have hu4 := undo_of_ext hEq4
                    obtain ⟨ihi2, iht2⟩ := ih g rest prog cs vars rf _ res2 st₅ heq2
                    rw [← h2]
                    constructor
                    · intro i
                      rw [ihi2 i, hu4.2 i]
                    · rw [iht2, hu4.1]

/-- Membership in a zip, with the pair swapped. -/
theorem zip_swap_mem {α β : Type} {l₁ : List α} {l₂ : List β} {p : α × β}
    (h : p ∈ l₁.zip l₂) : (p.2, p.1) ∈ l₂.zip l₁ := by
  rw [← List.zip_swap]
  exact List.mem_map.2 ⟨p, h, rfl⟩

/-- Dereferenced structural equality is symmetric. -/
theorem deq_symm {st : St} {n : Nat} {a b : Term} (h : DEq st n a b) : DEq st n b a := by
  induction h with
  | zero a b => exact DEq.zero b a
  | refl n a => exact DEq.refl n a
  | varL hb hd ih => exact DEq.varR hb ih
  | varR hb hd ih => exact DEq.varL hb ih
  | comp hl hall ih =>
      refine DEq.comp hl.symm (fun q hq => ?_)
      exact ih (q.2, q.1) (zip_swap_mem hq)

/-- Dereferenced structural equality survives extending the state:
new bindings never change a binding an earlier derivation used. -/
theorem deq_ext {st st' : St} (hx : Ext st st') :
    ∀ {n : Nat} {a b : Term}, DEq st n a b → DEq st' n a b := by
  intro n a b h
  induction h with
  | zero a b => exact DEq.zero a b
  | refl n a => exact DEq.refl n a
  | varL hb hd ih => exact DEq.varL (ext_inst_mono hx hb) ih
  | varR hb hd ih => exact DEq.varR (ext_inst_mono hx hb) ih
  | comp hl hall ih => exact DEq.comp hl (fun q hq => ih q hq)

/-- After a successful argument loop, every argument pair is
dereferenced-equal in the final state. -/
theorem unifyArgs_deq_of (fuel : Nat)
    (hP : ∀ a b st st', unify fuel a b st = some (true, st') → ∀ n, DEq st' n a b) :
    ∀ xs ys st st', unifyArgs fuel xs ys st = some (true, st') →
      ∀ p ∈ xs.zip ys, ∀ n, DEq st' n p.1 p.2 := by
  intro xs
  induction xs with
  | nil => intro ys st st' h p hp n; simp at hp
  | cons x xs ih =>
      intro ys st st' h p hp n
      cases ys with
      | nil => simp at hp
      | cons y ys =>
          rw [unifyArgs_cons] at h
          cases hu : unify fuel x y st with
          | none => rw [hu] at h; exact absurd h (by simp)
          | some rs =>
              match rs, hu with
              | (false, s), hu =>
                  rw [hu] at h
                  exact absurd h (by simp)
              | (true, s), hu =>
                  rw [hu] at h
                  rw [List.zip_cons_cons, List.mem_cons] at hp
                  rcases hp with hp | hp
                  · have hx : Ext s st' :=
                      unifyArgs_ext_of fuel (unify_ext fuel · · · · ·) xs ys s true st' h
                    rw [hp]
                    exact deq_ext hx (hP x y st s hu n)
                  · exact ih ys s st' h p hp n

/-- C6.  If `unify(a, b)` succeeds then the dereferenced structural
forms of `a` and `b` under the resulting bindings are identical at
every depth: the two terms are equal up to following variable
bindings. -/
theorem unify_success_deq :
    ∀ fuel a b st st', unify fuel a b st = some (true, st') → ∀ n, DEq st' n a b := by
  intro fuel
  induction fuel with
  | zero => intro a b st st' h; exact absurd h (by simp [unify])
  | succ fuel ih =>
      intro a b st st' h n
      match a, b with
      | Term.Var i, b =>
          rw [unify] at h
          cases hb : st.inst i with
          | none =>
              rw [hb] at h
              simp only [Option.some.injEq, Prod.mk.injEq, true_and] at h
              rw [← h]
              match n with
              | 0 => exact DEq.zero _ _
              | n+1 =>
                  refine DEq.varL (t := b) ?_ (DEq.refl n b)
                  show (if i = i then some b else st.inst i) = some b
                  rw [if_pos rfl]
          | some t =>
              rw [hb] at h
              match n with
              | 0 => exact DEq.zero _ _
              | n+1 =>
                  have hbi : st'.inst i = some t :=
                    ext_inst_mono (unify_ext fuel t b st true st' h) hb
                  exact DEq.varL hbi (ih t b st st' h n)
      | Term.Compound f as, Term.Var j =>
          rw [unify] at h
          cases hb : st.inst j with
          | none =>
              rw [hb] at h
              simp only [Option.some.injEq, Prod.mk.injEq, true_and] at h
              rw [← h]
              match n with
              | 0 => exact DEq.zero _ _
              | n+1 =>
                  refine DEq.varR (t := Term.Compound f as) ?_ (DEq.refl n _)
                  show (if j = j then some (Term.Compound f as) else st.inst j)
                    = some (Term.Compound f as)
                  rw [if_pos rfl]
          | some t =>
              rw [hb] at h
              match n with
              | 0 => exact DEq.zero _ _
              | n+1 =>
                  have hbj : st'.inst j = some t :=
                    ext_inst_mono (unify_ext fuel t (Term.Compound f as) st true st' h) hb
                  exact DEq.varR hbj (deq_symm (ih t (Term.Compound f as) st st' h n))
      | Term.Compound f as, Term.Compound g bs =>
          rw [unify_compound_eq] at h
          split at h
          · rename_i hcheck
            obtain ⟨hfg, hlen⟩ := hcheck
            rw [hfg]
            match n with
            | 0 => exact DEq.zero _ _
            | n+1 =>
                refine DEq.comp hlen.symm (fun p hp => ?_)
                have hall := unifyArgs_deq_of fuel (ih · · · · ·) bs as st st' h
                exact deq_symm (hall (p.2, p.1) (zip_swap_mem hp) n)
          · exact absurd h (by simp)

/-- Sequential pairwise unification success implies the argument loop
succeeds with the same final state. -/
theorem unifyArgs_of_unifyAll {fuel : Nat} {xs ys : List Term} {st st' : St}
    (h : UnifyAll fuel xs ys st st') : unifyArgs fuel xs ys st = some (true, st') := by
  induction h with
  | nil st => exact unifyArgs_nil fuel _ st
  | cons hu hall ih =>
      rw [unifyArgs_cons]
      rename_i x y xs ys st st₁ st₂
      rw [hu]
      exact ih

/-- A successful argument loop on lists of equal length is a chain of
successful pairwise unifications threading the state. -/
theorem unifyAll_of_unifyArgs (fuel : Nat) :
    ∀ xs ys : List Term, ∀ st st' : St, xs.length = ys.length →
      unifyArgs fuel xs ys st = some (true, st') → UnifyAll fuel xs ys st st' := by
  intro xs
  induction xs with
  | nil =>
      intro ys st st' hlen h
      cases ys with
      | nil =>
          rw [unifyArgs_nil] at h
          simp only [Option.some.injEq, Prod.mk.injEq, true_and] at h
          rw [← h]
          exact UnifyAll.nil st
      | cons y ys => simp at hlen
  | cons x xs ih =>
      intro ys st st' hlen h
      cases ys with
      | nil => simp at hlen
      | cons y ys =>
          rw [unifyArgs_cons] at h
          cases hu : unify fuel x y st with
          | none => rw [hu] at h; exact absurd h (by simp)
          | some rs =>
              match rs, hu with
              | (false, s), hu => rw [hu] at h; exact absurd h (by simp)
              | (true, s), hu =>
                  rw [hu] at h
                  simp only [List.length_cons, Nat.add_right_cancel_iff] at hlen
                  exact UnifyAll.cons hu (ih ys s st' hlen h)

/-- A failing argument loop pinpoints the first failing pair: the
pairs before it unified (threading the state), the failing call
returned the final state — the bindings made for the earlier pairs
and inside the failing call are kept, not rolled back. -/
theorem unifyArgs_false_decomp (fuel : Nat) :
    ∀ xs ys : List Term, ∀ st st' : St,
      unifyArgs fuel xs ys st = some (false, st') →
      ∃ xs₁ x xs₂ ys₁ y ys₂ st₁, xs = xs₁ ++ x :: xs₂ ∧ ys = ys₁ ++ y :: ys₂ ∧
        xs₁.length = ys₁.length ∧ UnifyAll fuel xs₁ ys₁ st st₁ ∧
        unify fuel x y st₁ = some (false, st') := by
  intro xs
  induction xs with
  | nil =>
      intro ys st st' h
      rw [unifyArgs_nil] at h
      exact absurd h (by simp)
  | cons x xs ih =>
      intro ys st st' h
      cases ys with
      | nil =>
          replace h : some (true, st) = some (false, st') := h
          exact absurd h (by simp)
      | cons y ys =>
          rw [unifyArgs_cons] at h
          cases hu : unify fuel x y st with
          | none => rw [hu] at h; exact absurd h (by simp)
          | some rs =>
              match rs, hu with
              | (false, s), hu =>
                  rw [hu] at h
                  simp only [Option.some.injEq, Prod.mk.injEq, true_and] at h
                  rw [← h]
                  exact ⟨[], x, xs, [], y, ys, st, rfl, rfl, rfl, UnifyAll.nil st, hu⟩
              | (true, s), hu =>
                  rw [hu] at h
                  obtain ⟨xs₁, x', xs₂, ys₁, y', ys₂, st₁, h1, h2, h3, h4, h5⟩ :=
                    ih ys s st' h
                  exact ⟨x :: xs₁, x', xs₂, y :: ys₁, y', ys₂, st₁,
                    by rw [h1]; rfl, by rw [h2]; rfl, by simp [h3],
                    UnifyAll.cons hu h4, h5⟩

/-- C4.  Unifying two compounds succeeds iff their functors are equal
(by atom name — functors are the interned strings), their arities are
equal, and the argument pairs unify sequentially left to right
(receiver side first, threading the state).  On failure, either the
functor/arity check failed and the state is untouched, or there is a
first failing argument pair: the pairs before it unified and remain
bound, and the returned state is the failing call's state — earlier
bindings are only undone by the caller's trail checkpoint. -/
theorem unify_compound_spec (fuel : Nat) (f g : String) (as bs : List Term) (st : St)
    (r : Bool) (st' : St)
    (h : unify (fuel+1) (Term.Compound f as) (Term.Compound g bs) st = some (r, st')) :
    (r = true ↔ g = f ∧ bs.length = as.length ∧ UnifyAll fuel bs as st st')
    ∧ (r = false →
        (¬(g = f ∧ bs.length = as.length) ∧ st' = st) ∨
        ∃ bs₁ y bs₂ as₁ x as₂ st₁, bs = bs₁ ++ y :: bs₂ ∧ as = as₁ ++ x :: as₂ ∧
          bs₁.length = as₁.length ∧ UnifyAll fuel bs₁ as₁ st st₁ ∧
          unify fuel y x st₁ = some (false, st')) := by
  rw [unify_compound_eq] at h
  split at h
  · rename_i hcheck
    constructor
    · constructor
      · intro hr
        rw [hr] at h
        exact ⟨hcheck.1, hcheck.2, unifyAll_of_unifyArgs fuel bs as st st' hcheck.2 h⟩
      · rintro ⟨-, -, hall⟩
        have := unifyArgs_of_unifyAll hall
        rw [this] at h
        simp only [Option.some.injEq, Prod.mk.injEq] at h
        exact h.1.symm
    · intro hr
      rw [hr] at h
      exact Or.inr (unifyArgs_false_decomp fuel bs as st st' h)
  · rename_i hcheck
    simp only [Option.some.injEq, Prod.mk.injEq] at h
    constructor
    · refine iff_of_false ?_ (fun hc => hcheck ⟨hc.1, hc.2.1⟩)
      rw [← h.1]
      simp
    · intro hr
      exact Or.inl ⟨hcheck, h.2.symm⟩

/-- C5.  Variable unification, for a variable on either side: an
unbound variable is bound to the other operand — pushed on the trail,
binding recorded — and unification succeeds unconditionally, even
when the other operand contains the variable itself (no occurs check:
the last conjunct binds `i` to a compound having `Var i` as first
argument, a cyclic binding); a bound variable delegates to unifying
its binding against the other operand. -/
theorem unify_variable_spec (fuel i j : Nat) (b t : Term) (f : String) (as : List Term)
    (st : St) :
    (st.inst i = none → unify (fuel+1) (Term.Var i) b st = some (true, bindVar i b st)
        ∧ (bindVar i b st).inst i = some b ∧ (bindVar i b st).trail = i :: st.trail)
    ∧ (st.inst j = none → unify (fuel+1) (Term.Compound f as) (Term.Var j) st
        = some (true, bindVar j (Term.Compound f as) st))
    ∧ (st.inst i = some t → unify (fuel+1) (Term.Var i) b st = unify fuel t b st)
    ∧ (st.inst j = some t → unify (fuel+1) (Term.Compound f as) (Term.Var j) st
        = unify fuel t (Term.Compound f as) st)
    ∧ (st.inst i = none →
        unify (fuel+1) (Term.Var i) (Term.Compound f (Term.Var i :: as)) st
          = some (true, bindVar i (Term.Compound f (Term.Var i :: as)) st)) := by
  refine ⟨fun h => ⟨?_, ?_, rfl⟩, fun h => ?_, fun h => ?_, fun h => ?_, fun h => ?_⟩
  · rw [unify, h]
  · show (if i = i then some b else st.inst i) = some b
    rw [if_pos rfl]
  · rw [unify, h]
  · rw [unify, h]
  · rw [unify, h]
  · rw [unify, h]

/-- C9.  Copying `f(X, X)` with `X` unbound yields `f(V, V)` for a
single fresh variable `V = counter+1`: the first occurrence allocates
`V` and binds the template variable `X` to it through the trail, the
second occurrence finds `X` bound and reuses the same `V`.  Only the
template variable is pushed on the trail (`V ≠ i` is never pushed),
the fresh variable is unbound, and after the caller undoes the
renaming bindings the template is restored unchanged while the fresh
variable is still live and unbound. -/
theorem copy_shared_variable (fuel i : Nat) (f : String) (st : St)
    (hunb : st.inst i = none) (hcnt : i ≤ st.counter)
    (hfresh : st.inst (st.counter + 1) = none) :
    ∃ st₁,
      copyTerm (fuel+2) (Term.Compound f [Term.Var i, Term.Var i]) st
          = some (Term.Compound f [Term.Var (st.counter+1), Term.Var (st.counter+1)], st₁)
      ∧ st₁.trail = i :: st.trail
      ∧ st.counter + 1 ≠ i
      ∧ st₁.inst (st.counter + 1) = none
      ∧ (∀ j, (undo st.trail st₁).inst j = st.inst j)
      ∧ (undo st.trail st₁).trail = st.trail
      ∧ (undo st.trail st₁).inst (st.counter + 1) = none := by
  have hne : st.counter + 1 ≠ i := by omega
  refine ⟨⟨fun j => if j = i then some (Term.Var (st.counter + 1)) else st.inst j,
    i :: st.trail, st.counter + 1⟩, ?_, rfl, hne, ?_, ?_, ?_, ?_⟩
  · simp [copyTerm_compound_eq, copyArgs_cons, copyArgs_nil, copyTerm, hunb]
  · show (if st.counter + 1 = i then _ else st.inst (st.counter + 1)) = none
    rw [if_neg hne, hfresh]
  · intro j
    have hx : Ext st ⟨fun j => if j = i then some (Term.Var (st.counter + 1)) else st.inst j,
        i :: st.trail, st.counter + 1⟩ := copyVar_ext st i hunb
    exact (undo_of_ext hx).2 j
  · have hx : Ext st ⟨fun j => if j = i then some (Term.Var (st.counter + 1)) else st.inst j,
        i :: st.trail, st.counter + 1⟩ := copyVar_ext st i hunb
    exact (undo_of_ext hx).1
  · have hx : Ext st ⟨fun j => if j = i then some (Term.Var (st.counter + 1)) else st.inst j,
        i :: st.trail, st.counter + 1⟩ := copyVar_ext st i hunb
    rw [(undo_of_ext hx).2 (st.counter + 1), hfresh]

/-- Each line the reporter prints pairs the supplied name with the
rendering of that variable's current binding. -/
theorem answerLines_forall₂ (rf : Nat) (st : St) :
    ∀ l L, answerLines rf st l = some L →
      List.Forall₂ (fun p s => ∃ r, renderTerm rf st (Term.Var p.2) = some r
        ∧ s = p.1 ++ " = " ++ r) l L := by
  intro l
  induction l with
  | nil =>
      intro L h
      replace h : some ([] : List String) = some L := h
      simp only [Option.some.injEq] at h
      rw [← h]
      exact List.Forall₂.nil
  | cons p rest ih =>
      intro L h
      match p with
      | (n, v) =>
          rw [answerLines] at h
          cases hr : renderTerm rf st (Term.Var v) with
          | none => rw [hr] at h; exact absurd h (by simp)
          | some s =>
              rw [hr] at h
              cases ha : answerLines rf st rest with
              | none => rw [ha] at h; exact absurd h (by simp)
              | some ls =>
                  rw [ha] at h
                  simp only [Option.map_some', Option.some.injEq] at h
                  rw [← h]
                  exact List.Forall₂.cons ⟨s, hr, rfl⟩ (ih ls ha)

/-- C10.  `VarMapping::show_answer`: with zero named variables it
prints the single line `yes`; otherwise it prints one
`name = value` line per variable, in the order supplied (the rendered
lines correspond pairwise, in order, to the name/variable table). -/
theorem show_answer_spec (m : VarMapping) (rf : Nat) (st : St) :
    (m.count = 0 → show_answer m rf st = some ["yes"])
    ∧ (m.count ≠ 0 → ∀ L, show_answer m rf st = some L →
        List.Forall₂ (fun p s => ∃ r, renderTerm rf st (Term.Var p.2) = some r
          ∧ s = p.1 ++ " = " ++ r) ((m.names.zip m.vars).take m.count) L) := by
  constructor
  · intro h
    rw [show_answer, if_pos h]
  · intro h L hL
    rw [show_answer, if_neg h] at hL
    exact answerLines_forall₂ rf st _ L hL

/-- Concrete instance of the compound unification characterization:
`a()` unifies with `a()` and the empty argument chain holds. -/
theorem unify_compound_spec_witness : UnifyAll 0 [] [] stP stP :=
  ((unify_compound_spec 0 "a" "a" [] [] stP true stP rfl).1.mp rfl).2.2

/-- Concrete instance: after unifying `X` with `nil`, the two are
dereferenced-equal. -/
theorem unify_success_deq_witness : DEq (bindVar 1 nilT stP) 1 (Term.Var 1) nilT :=
  unify_success_deq 1 (Term.Var 1) nilT stP (bindVar 1 nilT stP) rfl 1

/-- Concrete instance: undoing the binding of variable 1 restores the
empty trail and unbinds it; undoing at the checkpoint itself is a
no-op. -/
theorem undo_restores_checkpoint_witness :
    (undo stP.trail (bindVar 1 nilT stP)).trail = stP.trail
    ∧ (undo stP.trail (bindVar 1 nilT stP)).inst 1 = none
    ∧ undo stP.trail stP = stP := by
  have h := undo_restores_checkpoint stP (bindVar 1 nilT stP)
    (Steps.unifyStep (Steps.refl stP)
      (rfl : unify 1 (Term.Var 1) nilT stP = some (true, bindVar 1 nilT stP)))
  refine ⟨h.1, ?_, ?_⟩
  · obtain ⟨Δ, hΔ, hin⟩ := h.2.1
    have hΔ' : Δ = [1] := by simpa [bindVar, stP] using hΔ.symm
    exact hin 1 (by rw [hΔ']; exact List.mem_singleton.2 rfl)
  · exact (undo_restores_checkpoint stP stP (Steps.refl stP)).2.2 rfl

/-- Concrete instance: the `p(X)` run against `p(a).` ends with the
query variable unbound and the trail empty, as at the start. -/
theorem solve_preserves_bindings_witness :
    stPA.inst 1 = stP.inst 1 ∧ stPA.trail = stP.trail := by
  have h := solve_preserves_bindings 3 queryP [] [clauseA] [clauseA] [1] 3 stP resPA stPA rfl
  exact ⟨h.1 1, h.2⟩

/-- Concrete instance: `f(X, X)` copies to `f(V, V)` with the single
fresh variable `V = 2`. -/
theorem copy_shared_variable_witness :
    (copyTerm 2 (Term.Compound "f" [Term.Var 1, Term.Var 1]) stP).map Prod.fst
      = some (Term.Compound "f" [Term.Var 2, Term.Var 2]) := by
  obtain ⟨st₁, h1, -, -, -, -, -, -⟩ :=
    copy_shared_variable 0 1 "f" stP rfl (Nat.le_refl 1) rfl
  rw [h1]
  rfl

end Prolog
